import Mathlib

/-!
Verification of the rusty_crawler repository: a shallow embedding of the
link-graph data model (`src/model/link_graph.rs`), the page scraper
(`src/crawler.rs`), and the worker crawl loops (`src/main.rs` and
`rusty_crawler/src/crawler.rs`), together with proofs of the specified
properties (identity uniqueness, monotonic growth, edge validity,
idempotent re-merge, budget respect, frontier order, error handling).

Rust `HashMap`s are embedded as association lists with replace-on-insert
semantics; the `VecDeque` frontier is embedded as a list in front-to-back
order (`push_back` appends, `pop_back` removes from the end).
-/

set_option autoImplicit false

namespace RustyCrawler

universe u v

/-- First value stored under key `k` in an association list
(the embedding of Rust `HashMap::get`). -/
def findA {α : Type u} {β : Type v} [DecidableEq α] (k : α) : List (α × β) → Option β
  | [] => none
  | (k', v) :: rest => if k = k' then some v else findA k rest

/-- Embedding of Rust `HashMap::insert`: replace the value if the key is
present, otherwise append the new binding. -/
def insertA {α : Type u} {β : Type v} [DecidableEq α] (k : α) (v : β) : List (α × β) → List (α × β)
  | [] => [(k, v)]
  | (k', v') :: rest => if k = k' then (k, v) :: rest else (k', v') :: insertA k v rest

/-- Apply `f` to the value stored under key `k` (the embedding of a mutation
through `HashMap::get_mut`). -/
def modifyA {α : Type u} {β : Type v} [DecidableEq α] (k : α) (f : β → β) : List (α × β) → List (α × β)
  | [] => []
  | (k', v) :: rest => if k = k' then (k', f v) :: rest else (k', v) :: modifyA k f rest

section AssocLemmas

variable {α : Type u} {β : Type v} [DecidableEq α]

@[simp] theorem findA_nil (k : α) : findA k ([] : List (α × β)) = none := rfl

theorem findA_cons (k k' : α) (v : β) (rest : List (α × β)) :
    findA k ((k', v) :: rest) = if k = k' then some v else findA k rest := rfl

theorem findA_mem {k : α} {v : β} {m : List (α × β)} (h : findA k m = some v) : (k, v) ∈ m := by
  induction m with
  | nil => simp [findA] at h
  | cons p rest ih =>
    rw [show p = (p.1, p.2) from rfl, findA_cons] at h
    by_cases hk : k = p.1
    · simp [hk] at h
      rw [show (k, v) = p from by rw [show p = (p.1, p.2) from rfl, hk, h]]
      exact List.mem_cons_self p rest
    · simp [hk] at h
      right
      exact ih h

theorem findA_isSome_iff {k : α} {m : List (α × β)} :
    (findA k m).isSome ↔ k ∈ m.map Prod.fst := by
  induction m with
  | nil => simp [findA]
  | cons p rest ih =>
    rw [show p = (p.1, p.2) from rfl, findA_cons]
    by_cases hk : k = p.1 <;> simp [hk, ih]

theorem findA_eq_none_iff {k : α} {m : List (α × β)} :
    findA k m = none ↔ k ∉ m.map Prod.fst := by
  rw [← findA_isSome_iff, Option.isSome_iff_exists]
  cases findA k m <;> simp

theorem mem_findA {k : α} {v : β} {m : List (α × β)}
    (hnd : (m.map Prod.fst).Nodup) (h : (k, v) ∈ m) : findA k m = some v := by
  induction m with
  | nil => simp at h
  | cons p rest ih =>
    simp only [List.map_cons, List.nodup_cons] at hnd
    rcases List.mem_cons.mp h with h1 | h2
    · rw [← h1, findA_cons, if_pos rfl]
    · rw [show p = (p.1, p.2) from rfl, findA_cons]
      have hne : k ≠ p.1 := by
        intro hk
        exact hnd.1 (hk ▸ (List.mem_map.mpr ⟨(k, v), h2, rfl⟩))
      rw [if_neg hne]
      exact ih hnd.2 h2

theorem insertA_of_not_mem {k : α} {v : β} {m : List (α × β)}
    (h : findA k m = none) : insertA k v m = m ++ [(k, v)] := by
  induction m with
  | nil => rfl
  | cons p rest ih =>
    rw [show p = (p.1, p.2) from rfl, findA_cons] at h
    by_cases hk : k = p.1
    · simp [hk] at h
    · simp only [hk, if_neg] at h
      rw [show insertA k v ((p.1, p.2) :: rest) = (p.1, p.2) :: insertA k v rest from by
        rw [insertA, if_neg hk], ih h]
      rfl

theorem insertA_self {k : α} {v : β} {m : List (α × β)}
    (h : findA k m = some v) : insertA k v m = m := by
  induction m with
  | nil => simp [findA] at h
  | cons p rest ih =>
    rw [show p = (p.1, p.2) from rfl, findA_cons] at h
    by_cases hk : k = p.1
    · simp only [hk, if_pos] at h
      rw [show p = (p.1, p.2) from rfl, insertA, if_pos hk, hk, Option.some_inj.mp h]
    · simp only [hk, if_neg] at h
      rw [show p = (p.1, p.2) from rfl, insertA, if_neg hk, ih h]

theorem findA_modifyA_self (k : α) (f : β → β) (m : List (α × β)) :
    findA k (modifyA k f m) = (findA k m).map f := by
  induction m with
  | nil => rfl
  | cons p rest ih =>
    rw [show p = (p.1, p.2) from rfl, modifyA]
    by_cases hk : k = p.1
    · rw [if_pos hk, findA_cons, if_pos hk, findA_cons, if_pos hk]
      rfl
    · rw [if_neg hk, findA_cons, if_neg hk, findA_cons, if_neg hk, ih]

theorem findA_modifyA_ne {k j : α} (f : β → β) (m : List (α × β)) (h : j ≠ k) :
    findA j (modifyA k f m) = findA j m := by
  induction m with
  | nil => rfl
  | cons p rest ih =>
    rw [show p = (p.1, p.2) from rfl, modifyA]
    by_cases hk : k = p.1
    · rw [if_pos hk, findA_cons, findA_cons]
      have hj : j ≠ p.1 := hk ▸ h
      rw [if_neg hj, if_neg hj]
    · rw [if_neg hk, findA_cons, findA_cons, ih]

theorem modifyA_keys (k : α) (f : β → β) (m : List (α × β)) :
    (modifyA k f m).map Prod.fst = m.map Prod.fst := by
  induction m with
  | nil => rfl
  | cons p rest ih =>
    rw [show p = (p.1, p.2) from rfl, modifyA]
    by_cases hk : k = p.1
    · rw [if_pos hk]
      simp
    · rw [if_neg hk]
      simp [ih]

theorem modifyA_length (k : α) (f : β → β) (m : List (α × β)) :
    (modifyA k f m).length = m.length := by
  have := modifyA_keys k f m
  calc (modifyA k f m).length = ((modifyA k f m).map Prod.fst).length := by simp
    _ = (m.map Prod.fst).length := by rw [this]
    _ = m.length := by simp

theorem modifyA_mem {k : α} {f : β → β} {m : List (α × β)} {p : α × β}
    (h : p ∈ modifyA k f m) : p ∈ m ∨ ∃ v, (k, v) ∈ m ∧ p = (k, f v) := by
  induction m with
  | nil => simp [modifyA] at h
  | cons q rest ih =>
    rw [show q = (q.1, q.2) from rfl, modifyA] at h
    by_cases hk : k = q.1
    · rw [if_pos hk] at h
      rcases List.mem_cons.mp h with h1 | h2
      · right
        exact ⟨q.2, by simp [hk], by rw [h1, hk]⟩
      · left
        exact List.mem_cons_of_mem _ h2
    · rw [if_neg hk] at h
      rcases List.mem_cons.mp h with h1 | h2
      · left
        simp [h1]
      · rcases ih h2 with h3 | ⟨v, hv, hp⟩
        · exact Or.inl (List.mem_cons_of_mem _ h3)
        · exact Or.inr ⟨v, List.mem_cons_of_mem _ hv, hp⟩

theorem findA_append_of_none {k : α} {m m' : List (α × β)} (h : findA k m = none) :
    findA k (m ++ m') = findA k m' := by
  induction m with
  | nil => rfl
  | cons p rest ih =>
    rw [show p = (p.1, p.2) from rfl, findA_cons] at h
    by_cases hk : k = p.1
    · simp [hk] at h
    · rw [if_neg hk] at h
      rw [List.cons_append, show p = (p.1, p.2) from rfl, findA_cons, if_neg hk, ih h]

theorem findA_append_of_some {k : α} {v : β} {m m' : List (α × β)} (h : findA k m = some v) :
    findA k (m ++ m') = some v := by
  induction m with
  | nil => simp [findA] at h
  | cons p rest ih =>
    rw [show p = (p.1, p.2) from rfl, findA_cons] at h
    by_cases hk : k = p.1
    · rw [if_pos hk] at h
      rw [List.cons_append, show p = (p.1, p.2) from rfl, findA_cons, if_pos hk, h]
    · rw [if_neg hk] at h
      rw [List.cons_append, show p = (p.1, p.2) from rfl, findA_cons, if_neg hk, ih h]

theorem findA_single {k : α} {v : β} : findA k [(k, v)] = some v := by
  rw [show [(k, v)] = (k, v) :: [] from rfl, findA_cons, if_pos rfl]

theorem modifyA_append_of_none {k : α} (f : β → β) {m m' : List (α × β)}
    (h : findA k m = none) : modifyA k f (m ++ m') = m ++ modifyA k f m' := by
  induction m with
  | nil => rfl
  | cons p rest ih =>
    rw [show p = (p.1, p.2) from rfl, findA_cons] at h
    by_cases hk : k = p.1
    · simp [hk] at h
    · rw [if_neg hk] at h
      rw [List.cons_append, show p = (p.1, p.2) from rfl, modifyA, if_neg hk, ih h,
        List.cons_append]

theorem modifyA_append_of_some {k : α} (f : β → β) {v : β} {m m' : List (α × β)}
    (h : findA k m = some v) : modifyA k f (m ++ m') = modifyA k f m ++ m' := by
  induction m with
  | nil => simp [findA] at h
  | cons p rest ih =>
    rw [show p = (p.1, p.2) from rfl, findA_cons] at h
    by_cases hk : k = p.1
    · rw [List.cons_append, show p = (p.1, p.2) from rfl, modifyA, if_pos hk, modifyA,
        if_pos hk, List.cons_append]
    · rw [if_neg hk] at h
      rw [List.cons_append, show p = (p.1, p.2) from rfl, modifyA, if_neg hk, modifyA,
        if_neg hk, ih h, List.cons_append]

theorem modifyA_singleton {k : α} (f : β → β) {v : β} :
    modifyA k f [(k, v)] = [(k, f v)] := by
  rw [show [(k, v)] = (k, v) :: [] from rfl, modifyA, if_pos rfl]

theorem findA_isSome_append {k : α} {m m' : List (α × β)} (h : (findA k m).isSome = true) :
    (findA k (m ++ m')).isSome = true := by
  obtain ⟨v, hv⟩ := Option.isSome_iff_exists.mp h
  rw [findA_append_of_some hv]
  rfl

theorem findA_modifyA_isSome (k j : α) (f : β → β) (m : List (α × β)) :
    (findA j (modifyA k f m)).isSome = (findA j m).isSome := by
  by_cases hk : j = k
  · subst hk
    rw [findA_modifyA_self]
    cases findA j m <;> rfl
  · rw [findA_modifyA_ne _ _ hk]

theorem findA_modifyA_map {γ : Type v} {f : β → β} (proj : β → γ)
    (hpres : ∀ v, proj (f v) = proj v) (k j : α) (m : List (α × β)) :
    (findA j (modifyA k f m)).map proj = (findA j m).map proj := by
  by_cases hk : j = k
  · subst hk
    rw [findA_modifyA_self]
    cases findA j m with
    | none => rfl
    | some v => simp [hpres v]
  · rw [findA_modifyA_ne _ _ hk]

end AssocLemmas

/-- Embedding of `VecDeque::push_back`: append an entry at the back of the
frontier (the list is kept in front-to-back order). -/
def push_back {α : Type u} (q : List α) (x : α) : List α := q ++ [x]

/-- Embedding of `VecDeque::pop_back`: remove and return the entry at the
back of the frontier, or `none` when the frontier is empty. -/
def pop_back {α : Type u} (q : List α) : Option (α × List α) :=
  match q.getLast? with
  | none => none
  | some x => some (x, q.dropLast)

@[simp] theorem pop_back_nil {α : Type u} : pop_back ([] : List α) = none := rfl

/-- C8: Frontier order is LIFO — both crawl loops enqueue with `push_back`
and dequeue with `pop_back`, so `pop_back` removes and returns the most
recently pushed entry still present (stack order), for every frontier
state; on an empty frontier it returns nothing. -/
theorem C8_frontier_lifo {α : Type u} :
    (∀ (q : List α) (x : α), pop_back (push_back q x) = some (x, q)) ∧
      pop_back ([] : List α) = none := by
  constructor
  · intro q x
    rw [push_back, pop_back, List.getLast?_concat, List.dropLast_concat]
  · rfl

/-- Embedding of the `Image` record (`src/model/image.rs`): an absolute
image URL plus its alt text. -/
structure Image where
  link : String
  alt : String
  deriving DecidableEq, Repr

/-- Embedding of `LinkId` (`pub type LinkId = u64`). Ids are assigned from a
monotone counter; per the spec they are "process-unique, monotonically
assigned … never reused or recycled", so they are embedded as `Nat`. -/
abbrev LinkId := Nat

/-- Embedding of the `Link` page record (`model/link.rs`). -/
structure Link where
  id : LinkId
  url : String
  children : List LinkId
  parents : List LinkId
  images : List Image
  titles : List String
  deriving DecidableEq, Repr

/-- Embedding of `LinkGraph` (`src/model/link_graph.rs`): the map
`LinkId → Link`, the map `url → LinkId`, and the id counter.

`next_link_id` models the process-wide `LINK_ID_COUNTER` static consulted by
`Link`'s constructor. Modelled from the spec: the `link.rs` of the current
crate (defining `Link::default`) is not in the sources; per the spec a fresh
`LinkId` is "monotonically assigned … never reused", matching the
`AtomicU64::fetch_add` pattern of `rusty_crawler/src/model/link.rs`. -/
structure LinkGraph where
  links : List (LinkId × Link)
  link_ids : List (String × LinkId)
  next_link_id : LinkId
  deriving DecidableEq, Repr

/-- The `LinkGraph::default()` starting state: both maps empty. The counter
starts at 0 as in `AtomicU64::new(0)`. -/
def emptyGraph : LinkGraph := { links := [], link_ids := [], next_link_id := 0 }

/-- The fresh `Link` built by `force_get_link_id` for an unseen `url`:
`Link { url: url.to_string(), ..Default::default() }`, where the defaulted
`id` field consumes the next counter value and every list is empty. -/
def newLinkFor (url : String) (id : LinkId) : Link :=
  { id := id, url := url, children := [], parents := [], images := [], titles := [] }

/-- The mutation `update` performs on the record for `url` through the
`&mut Link` returned by `force_get_link_id`: push the parent id (when one
was resolved), then extend `children`, `images` and `titles`. -/
def extendLink (maybe_parent : Option LinkId) (valid_children : List LinkId)
    (images : List Image) (titles : List String) (l : Link) : Link :=
  { l with parents := l.parents ++ maybe_parent.toList,
           children := l.children ++ valid_children,
           images := l.images ++ images,
           titles := l.titles ++ titles }

/-- The mutation `update` performs on the parent's record:
`parent_link.children.push(this_link_id)`. -/
def pushChild (this_link_id : LinkId) (l : Link) : Link :=
  { l with children := l.children ++ [this_link_id] }

/-- Embedding of `LinkGraph::force_get_link_id`: retrieve the id for `url`
if present; otherwise construct a fresh `Link` (consuming one counter value)
and insert it under its new id, failing if that id is already a key. In both
cases re-insert the `url ↦ id` binding and look the record back up. Returns
the updated graph together with the `Result`; mutations made before an error
point persist, as they do through `&mut self` in the source. -/
def LinkGraph.force_get_link_id (g : LinkGraph) (url : String) :
    LinkGraph × Except String LinkId :=
  match findA url g.link_ids with
  | some linkId =>
      let g1 : LinkGraph := { g with link_ids := insertA url linkId g.link_ids }
      match findA linkId g1.links with
      | some _ => (g1, Except.ok linkId)
      | none => (g1, Except.error "failed to get link")
  | none =>
      let newLink : Link := newLinkFor url g.next_link_id
      let newLinkId := newLink.id
      let old := findA newLinkId g.links
      let g1 : LinkGraph :=
        { g with links := insertA newLinkId newLink g.links,
                 next_link_id := g.next_link_id + 1 }
      match old with
      | some _ => (g1, Except.error "link already exists")
      | none =>
          let g2 : LinkGraph := { g1 with link_ids := insertA url newLinkId g.link_ids }
          match findA newLinkId g2.links with
          | some _ => (g2, Except.ok newLinkId)
          | none => (g2, Except.error "failed to get link")

/-- Embedding of `LinkGraph::update`: resolve the parent id and the ids of
already-present children against the pre-call maps, resolve-or-create the
record for `url`, push the parent id onto its `parents`, extend its
`children`/`images`/`titles`, then push this record's id onto the parent's
`children`. -/
def LinkGraph.update (g : LinkGraph) (url parent : String) (children : List String)
    (images : List Image) (titles : List String) : LinkGraph × Except String Unit :=
  let maybe_parent := findA parent g.link_ids
  let valid_children := children.filterMap (fun c => findA c g.link_ids)
  match g.force_get_link_id url with
  | (g1, Except.error e) => (g1, Except.error e)
  | (g1, Except.ok this_link_id) =>
      let ext := extendLink maybe_parent valid_children images titles
      let g2 : LinkGraph := { g1 with links := modifyA this_link_id ext g1.links }
      match maybe_parent with
      | none => (g2, Except.ok ())
      | some parent_id =>
          match findA parent_id g2.links with
          | none => (g2, Except.error "could not find parent link")
          | some _ =>
              ({ g2 with links := modifyA parent_id (pushChild this_link_id) g2.links },
               Except.ok ())

/-- Embedding of `LinkGraph::len`: the number of stored `Link` records. -/
def LinkGraph.len (g : LinkGraph) : Nat := g.links.length

/-- Embedding of `LinkGraph::link_visited`: whether `url` already has an
assigned `LinkId`. -/
def LinkGraph.link_visited (g : LinkGraph) (url : String) : Bool :=
  (findA url g.link_ids).isSome

/-- Record of all arguments of one `LinkGraph::update` call. -/
structure UpdateCall where
  url : String
  parent : String
  children : List String
  images : List Image
  titles : List String
  deriving DecidableEq, Repr

/-- Run a sequence of `update` calls from `g`, keeping the (possibly
partially mutated) graph of each step whether or not the step errored —
exactly as the crawl loop does, which only logs an `update` error. -/
def applyUpdates (g : LinkGraph) (cs : List UpdateCall) : LinkGraph :=
  cs.foldl (fun g c => (g.update c.url c.parent c.children c.images c.titles).1) g

/-- Run a sequence of `update` calls from the default (empty) graph. -/
def applyCalls (cs : List UpdateCall) : LinkGraph := applyUpdates emptyGraph cs

/-- Well-formedness invariant of a `LinkGraph` state, satisfied by every
state reachable from `LinkGraph::default()`: both maps have no duplicate
keys; every stored id is below the counter; every record's `id` field equals
its key; every id held in `link_ids` refers to a stored record carrying that
very url; `link_ids` is injective; every stored record's url maps back to
its key; every id in a `children`/`parents` list refers to a stored record;
and the two maps have equal cardinality. Stated with bounded quantifiers so
that it is decidable on concrete states. -/
def wf (g : LinkGraph) : Prop :=
  (g.links.map Prod.fst).Nodup ∧
  (g.link_ids.map Prod.fst).Nodup ∧
  (∀ p ∈ g.links, p.1 < g.next_link_id) ∧
  (∀ p ∈ g.links, p.2.id = p.1) ∧
  (∀ q ∈ g.link_ids, (findA q.2 g.links).map Link.url = some q.1) ∧
  (∀ q ∈ g.link_ids, ∀ r ∈ g.link_ids, q.2 = r.2 → q.1 = r.1) ∧
  (∀ p ∈ g.links, findA p.2.url g.link_ids = some p.1) ∧
  (∀ p ∈ g.links, ∀ e ∈ p.2.children ++ p.2.parents, (findA e g.links).isSome = true) ∧
  g.links.length = g.link_ids.length

instance wf_decidable (g : LinkGraph) : Decidable (wf g) := by
  unfold wf
  infer_instance

theorem wf_empty : wf emptyGraph := by decide

@[simp] theorem extendLink_id (mp : Option LinkId) (vc : List LinkId) (i : List Image)
    (t : List String) (l : Link) : (extendLink mp vc i t l).id = l.id := rfl

@[simp] theorem extendLink_url (mp : Option LinkId) (vc : List LinkId) (i : List Image)
    (t : List String) (l : Link) : (extendLink mp vc i t l).url = l.url := rfl

@[simp] theorem pushChild_id (c : LinkId) (l : Link) : (pushChild c l).id = l.id := rfl

@[simp] theorem pushChild_url (c : LinkId) (l : Link) : (pushChild c l).url = l.url := rfl

theorem wf_url_record {g : LinkGraph} {url : String} {lid : LinkId} (hwf : wf g)
    (hfind : findA url g.link_ids = some lid) :
    ∃ l, findA lid g.links = some l ∧ l.url = url := by
  obtain ⟨-, -, -, -, h5, -⟩ := hwf
  have := h5 (url, lid) (findA_mem hfind)
  cases hfa : findA lid g.links with
  | none => rw [hfa] at this; simp at this
  | some l =>
      rw [hfa] at this
      simp only [Option.map_some] at this
      exact ⟨l, rfl, Option.some_inj.mp this⟩

theorem wf_fresh {g : LinkGraph} (hwf : wf g) : findA g.next_link_id g.links = none := by
  obtain ⟨-, -, h3, -⟩ := hwf
  rw [findA_eq_none_iff]
  intro hmem
  obtain ⟨p, hp, hfst⟩ := List.mem_map.mp hmem
  exact absurd (hfst ▸ h3 p hp) (lt_irrefl _)

theorem force_get_seen {g : LinkGraph} {url : String} {lid : LinkId} {l : Link}
    (hfind : findA url g.link_ids = some lid) (hl : findA lid g.links = some l) :
    g.force_get_link_id url = (g, Except.ok lid) := by
  unfold LinkGraph.force_get_link_id
  rw [hfind]
  simp only [insertA_self hfind, hl]

theorem force_get_new {g : LinkGraph} {url : String}
    (hfind : findA url g.link_ids = none) (hfresh : findA g.next_link_id g.links = none) :
    g.force_get_link_id url =
      ({ links := g.links ++ [(g.next_link_id, newLinkFor url g.next_link_id)],
         link_ids := g.link_ids ++ [(url, g.next_link_id)],
         next_link_id := g.next_link_id + 1 }, Except.ok g.next_link_id) := by
  unfold LinkGraph.force_get_link_id
  rw [hfind]
  simp only [newLinkFor, hfresh, insertA_of_not_mem hfresh, insertA_of_not_mem hfind,
    findA_append_of_none hfresh, findA_single]

theorem update_seen_noparent {g : LinkGraph} {url parent : String} {lid : LinkId} {l : Link}
    (hfind : findA url g.link_ids = some lid) (hl : findA lid g.links = some l)
    (hp : findA parent g.link_ids = none)
    (children : List String) (images : List Image) (titles : List String) :
    g.update url parent children images titles =
      ({ g with links := (modifyA lid
          (extendLink none (children.filterMap (fun c => findA c g.link_ids)) images titles)
          g.links) }, Except.ok ()) := by
  unfold LinkGraph.update
  rw [force_get_seen hfind hl]
  simp only [hp]

theorem update_seen_parent {g : LinkGraph} {url parent : String} {lid pid : LinkId}
    {l P : Link}
    (hfind : findA url g.link_ids = some lid) (hl : findA lid g.links = some l)
    (hp : findA parent g.link_ids = some pid) (hP : findA pid g.links = some P)
    (children : List String) (images : List Image) (titles : List String) :
    g.update url parent children images titles =
      ({ g with links := (modifyA pid (pushChild lid)
          (modifyA lid
            (extendLink (some pid) (children.filterMap (fun c => findA c g.link_ids))
              images titles)
            g.links)) }, Except.ok ()) := by
  unfold LinkGraph.update
  rw [force_get_seen hfind hl]
  simp only [hp]
  by_cases hple : pid = lid
  · subst hple
    rw [findA_modifyA_self, hl]
    rfl
  · rw [findA_modifyA_ne _ _ hple, hP]

theorem update_new_noparent {g : LinkGraph} {url parent : String}
    (hfind : findA url g.link_ids = none) (hfresh : findA g.next_link_id g.links = none)
    (hp : findA parent g.link_ids = none)
    (children : List String) (images : List Image) (titles : List String) :
    g.update url parent children images titles =
      ({ links := g.links ++ [(g.next_link_id,
           extendLink none (children.filterMap (fun c => findA c g.link_ids)) images titles
             (newLinkFor url g.next_link_id))],
         link_ids := g.link_ids ++ [(url, g.next_link_id)],
         next_link_id := g.next_link_id + 1 }, Except.ok ()) := by
  unfold LinkGraph.update
  rw [force_get_new hfind hfresh]
  simp only [hp]
  rw [modifyA_append_of_none _ hfresh, modifyA_singleton]

theorem update_new_parent {g : LinkGraph} {url parent : String} {pid : LinkId} {P : Link}
    (hfind : findA url g.link_ids = none) (hfresh : findA g.next_link_id g.links = none)
    (hp : findA parent g.link_ids = some pid) (hP : findA pid g.links = some P)
    (children : List String) (images : List Image) (titles : List String) :
    g.update url parent children images titles =
      ({ links := modifyA pid (pushChild g.next_link_id) g.links ++ [(g.next_link_id,
           extendLink (some pid) (children.filterMap (fun c => findA c g.link_ids))
             images titles (newLinkFor url g.next_link_id))],
         link_ids := g.link_ids ++ [(url, g.next_link_id)],
         next_link_id := g.next_link_id + 1 }, Except.ok ()) := by
  unfold LinkGraph.update
  rw [force_get_new hfind hfresh]
  simp only [hp]
  rw [modifyA_append_of_none _ hfresh, modifyA_singleton, findA_append_of_some hP,
    modifyA_append_of_some _ hP]

theorem wf_modify {g : LinkGraph} (hwf : wf g) (k : LinkId) (f : Link → Link)
    (a pa : List LinkId)
    (hid : ∀ l, (f l).id = l.id) (hurl : ∀ l, (f l).url = l.url)
    (hfc : ∀ l, (f l).children = l.children ++ a)
    (hfp : ∀ l, (f l).parents = l.parents ++ pa)
    (hav : ∀ e ∈ a ++ pa, (findA e g.links).isSome = true) :
    wf { g with links := modifyA k f g.links } := by
  obtain ⟨h1, h2, h3, h4, h5, h6, h7, h8, h9⟩ := hwf
  refine ⟨?_, h2, ?_, ?_, ?_, h6, ?_, ?_, ?_⟩
  · rw [modifyA_keys]
    exact h1
  · intro p hp
    rcases modifyA_mem hp with h | ⟨v, hv, rfl⟩
    · exact h3 p h
    · exact h3 (k, v) hv
  · intro p hp
    rcases modifyA_mem hp with h | ⟨v, hv, rfl⟩
    · exact h4 p h
    · rw [hid v]
      exact h4 (k, v) hv
  · intro q hq
    rw [findA_modifyA_map Link.url hurl]
    exact h5 q hq
  · intro p hp
    rcases modifyA_mem hp with h | ⟨v, hv, rfl⟩
    · exact h7 p h
    · rw [show (k, f v).2.url = v.url from hurl v]
      exact h7 (k, v) hv
  · intro p hp e he
    rw [findA_modifyA_isSome]
    rcases modifyA_mem hp with h | ⟨v, hv, rfl⟩
    · exact h8 p h e he
    · rw [show (k, f v).2 = f v from rfl, hfc v, hfp v] at he
      rcases List.mem_append.mp he with hec | hep
      · rcases List.mem_append.mp hec with h' | h'
        · exact h8 (k, v) hv e (List.mem_append.mpr (Or.inl h'))
        · exact hav e (List.mem_append.mpr (Or.inl h'))
      · rcases List.mem_append.mp hep with h' | h'
        · exact h8 (k, v) hv e (List.mem_append.mpr (Or.inr h'))
        · exact hav e (List.mem_append.mpr (Or.inr h'))
  · rw [modifyA_length]
    exact h9

theorem wf_force_get_new {g : LinkGraph} {url : String} (hwf : wf g)
    (hfind : findA url g.link_ids = none) :
    wf { links := g.links ++ [(g.next_link_id, newLinkFor url g.next_link_id)],
         link_ids := g.link_ids ++ [(url, g.next_link_id)],
         next_link_id := g.next_link_id + 1 } := by
  have hfresh := wf_fresh hwf
  obtain ⟨h1, h2, h3, h4, h5, h6, h7, h8, h9⟩ := hwf
  have hvalmem : ∀ q ∈ g.link_ids, q.2 ∈ g.links.map Prod.fst := by
    intro q hq
    rw [← findA_isSome_iff]
    have := h5 q hq
    cases hfa : findA q.2 g.links with
    | none => rw [hfa] at this; simp at this
    | some _ => rfl
  have hvallt : ∀ q ∈ g.link_ids, q.2 < g.next_link_id := by
    intro q hq
    obtain ⟨p, hp, hfst⟩ := List.mem_map.mp (hvalmem q hq)
    exact hfst ▸ h3 p hp
  refine ⟨?_, ?_, ?_, ?_, ?_, ?_, ?_, ?_, ?_⟩
  · rw [List.map_append]
    refine List.Nodup.append h1 (List.nodup_singleton _) ?_
    intro x hx hx'
    rw [List.mem_map] at hx
    obtain ⟨p, hp, hfst⟩ := hx
    rw [List.mem_singleton.mp hx'] at hfst
    exact absurd (hfst ▸ h3 p hp) (lt_irrefl _)
  · rw [List.map_append]
    refine List.Nodup.append h2 (List.nodup_singleton _) ?_
    intro x hx hx'
    rw [List.mem_singleton.mp hx'] at hx
    exact absurd hx (findA_eq_none_iff.mp hfind)
  · intro p hp
    rcases List.mem_append.mp hp with h | h
    · exact Nat.lt_succ_of_lt (h3 p h)
    · rw [List.mem_singleton.mp h]
      exact Nat.lt_succ_self _
  · intro p hp
    rcases List.mem_append.mp hp with h | h
    · exact h4 p h
    · rw [List.mem_singleton.mp h]
      rfl
  · intro q hq
    rcases List.mem_append.mp hq with h | h
    · have := h5 q h
      cases hfa : findA q.2 g.links with
      | none => rw [hfa] at this; simp at this
      | some v =>
          rw [findA_append_of_some hfa]
          rw [hfa] at this
          exact this
    · rw [List.mem_singleton.mp h]
      rw [show ((url, g.next_link_id) : String × LinkId).2 = g.next_link_id from rfl,
        findA_append_of_none hfresh, findA_single]
      rfl
  · intro q hq r hr
    rcases List.mem_append.mp hq with h | h <;> rcases List.mem_append.mp hr with h' | h'
    · exact h6 q h r h'
    · intro hqr
      rw [List.mem_singleton.mp h'] at hqr
      exact absurd (hqr ▸ hvallt q h) (lt_irrefl _)
    · intro hqr
      rw [List.mem_singleton.mp h] at hqr
      exact absurd (hqr ▸ hvallt r h') (lt_irrefl _)
    · rw [List.mem_singleton.mp h, List.mem_singleton.mp h']
      intro _
      rfl
  · intro p hp
    rcases List.mem_append.mp hp with h | h
    · exact findA_append_of_some (h7 p h)
    · rw [List.mem_singleton.mp h]
      rw [show (newLinkFor url g.next_link_id).url = url from rfl,
        findA_append_of_none hfind, findA_single]
  · intro p hp e he
    rcases List.mem_append.mp hp with h | h
    · exact findA_isSome_append (h8 p h e he)
    · rw [List.mem_singleton.mp h] at he
      simp [newLinkFor] at he
  · simp [h9]

theorem wf_update {g : LinkGraph} (hwf : wf g) (url parent : String)
    (children : List String) (images : List Image) (titles : List String) :
    wf (g.update url parent children images titles).1 := by
  have hvalid : ∀ e ∈ children.filterMap (fun c => findA c g.link_ids),
      (findA e g.links).isSome = true := by
    intro e he
    obtain ⟨c, -, hc⟩ := List.mem_filterMap.mp he
    obtain ⟨l, hl, -⟩ := wf_url_record hwf hc
    rw [hl]
    rfl
  cases hfind : findA url g.link_ids with
  | some lid =>
      obtain ⟨l, hl, -⟩ := wf_url_record hwf hfind
      cases hp : findA parent g.link_ids with
      | none =>
          rw [update_seen_noparent hfind hl hp children images titles]
          exact wf_modify hwf lid _ (children.filterMap (fun c => findA c g.link_ids)) []
            (fun _ => rfl) (fun _ => rfl) (fun _ => rfl) (fun _ => rfl)
            (fun e he => hvalid e (by rwa [List.append_nil] at he))
      | some pid =>
          obtain ⟨P, hP, -⟩ := wf_url_record hwf hp
          rw [update_seen_parent hfind hl hp hP children images titles]
          have hwf1 := wf_modify hwf lid
            (extendLink (some pid) (children.filterMap (fun c => findA c g.link_ids))
              images titles)
            (children.filterMap (fun c => findA c g.link_ids)) [pid]
            (fun _ => rfl) (fun _ => rfl) (fun _ => rfl) (fun _ => rfl)
            (by
              intro e he
              rcases List.mem_append.mp he with h' | h'
              · exact hvalid e h'
              · rw [List.mem_singleton.mp h', hP]
                rfl)
          exact wf_modify hwf1 pid (pushChild lid) [lid] []
            (fun _ => rfl) (fun _ => rfl) (fun _ => rfl)
            (fun l' => (List.append_nil l'.parents).symm)
            (by
              intro e he
              rw [List.append_nil] at he
              rw [List.mem_singleton.mp he]
              have h' : (findA lid (modifyA lid
                  (extendLink (some pid)
                    (children.filterMap (fun c => findA c g.link_ids)) images titles)
                  g.links)).isSome = true := by
                rw [findA_modifyA_isSome, hl]
                rfl
              exact h')
  | none =>
      have hfresh := wf_fresh hwf
      have hG' := wf_force_get_new hwf hfind
      cases hp : findA parent g.link_ids with
      | none =>
          rw [update_new_noparent hfind hfresh hp children images titles]
          have h2 := wf_modify hG' g.next_link_id
            (extendLink none (children.filterMap (fun c => findA c g.link_ids))
              images titles)
            (children.filterMap (fun c => findA c g.link_ids)) []
            (fun _ => rfl) (fun _ => rfl) (fun _ => rfl) (fun _ => rfl)
            (by
              intro e he
              rw [List.append_nil] at he
              have h' : (findA e (g.links ++
                  [(g.next_link_id, newLinkFor url g.next_link_id)])).isSome = true :=
                findA_isSome_append (hvalid e he)
              exact h')
          have h2' : wf
              { links := (modifyA g.next_link_id
                  (extendLink none (children.filterMap (fun c => findA c g.link_ids))
                    images titles)
                  (g.links ++ [(g.next_link_id, newLinkFor url g.next_link_id)])),
                link_ids := (g.link_ids ++ [(url, g.next_link_id)]),
                next_link_id := g.next_link_id + 1 } := h2
          rw [modifyA_append_of_none _ hfresh, modifyA_singleton] at h2'
          exact h2'
      | some pid =>
          obtain ⟨P, hP, -⟩ := wf_url_record hwf hp
          rw [update_new_parent hfind hfresh hp hP children images titles]
          have h2 := wf_modify hG' g.next_link_id
            (extendLink (some pid) (children.filterMap (fun c => findA c g.link_ids))
              images titles)
            (children.filterMap (fun c => findA c g.link_ids)) [pid]
            (fun _ => rfl) (fun _ => rfl) (fun _ => rfl) (fun _ => rfl)
            (by
              intro e he
              rcases List.mem_append.mp he with h' | h'
              · have h'' : (findA e (g.links ++
                    [(g.next_link_id, newLinkFor url g.next_link_id)])).isSome = true :=
                  findA_isSome_append (hvalid e h')
                exact h''
              · rw [List.mem_singleton.mp h']
                have h'' : (findA pid (g.links ++
                    [(g.next_link_id, newLinkFor url g.next_link_id)])).isSome = true := by
                  rw [findA_append_of_some hP]
                  rfl
                exact h'')
          have h2' : wf
              { links := (modifyA g.next_link_id
                  (extendLink (some pid) (children.filterMap (fun c => findA c g.link_ids))
                    images titles)
                  (g.links ++ [(g.next_link_id, newLinkFor url g.next_link_id)])),
                link_ids := (g.link_ids ++ [(url, g.next_link_id)]),
                next_link_id := g.next_link_id + 1 } := h2
          rw [modifyA_append_of_none _ hfresh, modifyA_singleton] at h2'
          have h3 := wf_modify h2' pid (pushChild g.next_link_id) [g.next_link_id] []
            (fun _ => rfl) (fun _ => rfl) (fun _ => rfl)
            (fun l' => (List.append_nil l'.parents).symm)
            (by
              intro e he
              rw [List.append_nil] at he
              rw [List.mem_singleton.mp he]
              have h' : (findA g.next_link_id (g.links ++
                  [(g.next_link_id, extendLink (some pid)
                    (children.filterMap (fun c => findA c g.link_ids)) images titles
                    (newLinkFor url g.next_link_id))])).isSome = true := by
                rw [findA_append_of_none hfresh, findA_single]
                rfl
              exact h')
          have h3' : wf
              { links := (modifyA pid (pushChild g.next_link_id)
                  (g.links ++ [(g.next_link_id, extendLink (some pid)
                    (children.filterMap (fun c => findA c g.link_ids)) images titles
                    (newLinkFor url g.next_link_id))])),
                link_ids := (g.link_ids ++ [(url, g.next_link_id)]),
                next_link_id := g.next_link_id + 1 } := h3
          rw [modifyA_append_of_some _ hP] at h3'
          exact h3'

theorem update_ok {g : LinkGraph} (hwf : wf g) (url parent : String)
    (children : List String) (images : List Image) (titles : List String) :
    (g.update url parent children images titles).2 = Except.ok () := by
  cases hfind : findA url g.link_ids with
  | some lid =>
      obtain ⟨l, hl, -⟩ := wf_url_record hwf hfind
      cases hp : findA parent g.link_ids with
      | none => rw [update_seen_noparent hfind hl hp children images titles]
      | some pid =>
          obtain ⟨P, hP, -⟩ := wf_url_record hwf hp
          rw [update_seen_parent hfind hl hp hP children images titles]
  | none =>
      have hfresh := wf_fresh hwf
      cases hp : findA parent g.link_ids with
      | none => rw [update_new_noparent hfind hfresh hp children images titles]
      | some pid =>
          obtain ⟨P, hP, -⟩ := wf_url_record hwf hp
          rw [update_new_parent hfind hfresh hp hP children images titles]

theorem update_link_ids {g : LinkGraph} (hwf : wf g) (url parent : String)
    (children : List String) (images : List Image) (titles : List String) :
    (g.update url parent children images titles).1.link_ids =
      match findA url g.link_ids with
      | some _ => g.link_ids
      | none => g.link_ids ++ [(url, g.next_link_id)] := by
  cases hfind : findA url g.link_ids with
  | some lid =>
      obtain ⟨l, hl, -⟩ := wf_url_record hwf hfind
      cases hp : findA parent g.link_ids with
      | none => rw [update_seen_noparent hfind hl hp children images titles]
      | some pid =>
          obtain ⟨P, hP, -⟩ := wf_url_record hwf hp
          rw [update_seen_parent hfind hl hp hP children images titles]
  | none =>
      have hfresh := wf_fresh hwf
      cases hp : findA parent g.link_ids with
      | none => rw [update_new_noparent hfind hfresh hp children images titles]
      | some pid =>
          obtain ⟨P, hP, -⟩ := wf_url_record hwf hp
          rw [update_new_parent hfind hfresh hp hP children images titles]

theorem update_next_link_id {g : LinkGraph} (hwf : wf g) (url parent : String)
    (children : List String) (images : List Image) (titles : List String) :
    (g.update url parent children images titles).1.next_link_id =
      match findA url g.link_ids with
      | some _ => g.next_link_id
      | none => g.next_link_id + 1 := by
  cases hfind : findA url g.link_ids with
  | some lid =>
      obtain ⟨l, hl, -⟩ := wf_url_record hwf hfind
      cases hp : findA parent g.link_ids with
      | none => rw [update_seen_noparent hfind hl hp children images titles]
      | some pid =>
          obtain ⟨P, hP, -⟩ := wf_url_record hwf hp
          rw [update_seen_parent hfind hl hp hP children images titles]
  | none =>
      have hfresh := wf_fresh hwf
      cases hp : findA parent g.link_ids with
      | none => rw [update_new_noparent hfind hfresh hp children images titles]
      | some pid =>
          obtain ⟨P, hP, -⟩ := wf_url_record hwf hp
          rw [update_new_parent hfind hfresh hp hP children images titles]

theorem update_len {g : LinkGraph} (hwf : wf g) (url parent : String)
    (children : List String) (images : List Image) (titles : List String) :
    (g.update url parent children images titles).1.len =
      match findA url g.link_ids with
      | some _ => g.len
      | none => g.len + 1 := by
  cases hfind : findA url g.link_ids with
  | some lid =>
      obtain ⟨l, hl, -⟩ := wf_url_record hwf hfind
      cases hp : findA parent g.link_ids with
      | none =>
          rw [update_seen_noparent hfind hl hp children images titles]
          exact modifyA_length _ _ _
      | some pid =>
          obtain ⟨P, hP, -⟩ := wf_url_record hwf hp
          rw [update_seen_parent hfind hl hp hP children images titles]
          rw [show ∀ h : LinkGraph, h.len = h.links.length from fun _ => rfl]
          rw [modifyA_length, modifyA_length]
          rfl
  | none =>
      have hfresh := wf_fresh hwf
      cases hp : findA parent g.link_ids with
      | none =>
          rw [update_new_noparent hfind hfresh hp children images titles]
          simp [LinkGraph.len]
      | some pid =>
          obtain ⟨P, hP, -⟩ := wf_url_record hwf hp
          rw [update_new_parent hfind hfresh hp hP children images titles]
          simp [LinkGraph.len, modifyA_length]

theorem update_ids_stable {g : LinkGraph} (hwf : wf g) {u : String} {i : LinkId}
    (h : findA u g.link_ids = some i) (url parent : String)
    (children : List String) (images : List Image) (titles : List String) :
    findA u (g.update url parent children images titles).1.link_ids = some i := by
  rw [update_link_ids hwf url parent children images titles]
  cases findA url g.link_ids with
  | some lid => exact h
  | none => exact findA_append_of_some h

theorem update_record_stable {g : LinkGraph} (hwf : wf g) {i : LinkId} {l : Link}
    (h : findA i g.links = some l) (url parent : String)
    (children : List String) (images : List Image) (titles : List String) :
    ∃ l', findA i (g.update url parent children images titles).1.links = some l' ∧
      l'.id = l.id ∧ l'.url = l.url := by
  have hproj : ∀ (m : List (LinkId × Link)),
      (findA i m).map (fun x => (x.id, x.url)) = some (l.id, l.url) →
      ∃ l', findA i m = some l' ∧ l'.id = l.id ∧ l'.url = l.url := by
    intro m hm
    cases hfa : findA i m with
    | none => rw [hfa] at hm; simp at hm
    | some l' =>
        rw [hfa] at hm
        have h2 : (l'.id, l'.url) = (l.id, l.url) := Option.some_inj.mp hm
        exact ⟨l', rfl, congrArg Prod.fst h2, congrArg Prod.snd h2⟩
  have hextend : ∀ (mp : Option LinkId) (vc : List LinkId) (im : List Image)
      (ts : List String) (x : Link),
      (fun y => (y.id, y.url)) (extendLink mp vc im ts x) = (fun y => (y.id, y.url)) x :=
    fun _ _ _ _ _ => rfl
  have hpush : ∀ (c : LinkId) (x : Link),
      (fun y => (y.id, y.url)) (pushChild c x) = (fun y => (y.id, y.url)) x :=
    fun _ _ => rfl
  cases hfind : findA url g.link_ids with
  | some lid =>
      obtain ⟨l0, hl0, -⟩ := wf_url_record hwf hfind
      cases hp : findA parent g.link_ids with
      | none =>
          rw [update_seen_noparent hfind hl0 hp children images titles]
          refine hproj _ ?_
          rw [findA_modifyA_map _ (hextend _ _ _ _), h]
          rfl
      | some pid =>
          obtain ⟨P, hP, -⟩ := wf_url_record hwf hp
          rw [update_seen_parent hfind hl0 hp hP children images titles]
          refine hproj _ ?_
          rw [findA_modifyA_map _ (hpush _), findA_modifyA_map _ (hextend _ _ _ _), h]
          rfl
  | none =>
      have hfresh := wf_fresh hwf
      cases hp : findA parent g.link_ids with
      | none =>
          rw [update_new_noparent hfind hfresh hp children images titles]
          refine hproj _ ?_
          show (findA i (g.links ++ [(g.next_link_id,
              extendLink none (children.filterMap (fun c => findA c g.link_ids))
                images titles (newLinkFor url g.next_link_id))])).map
              (fun x => (x.id, x.url)) = some (l.id, l.url)
          rw [findA_append_of_some h]
          rfl
      | some pid =>
          obtain ⟨P, hP, -⟩ := wf_url_record hwf hp
          rw [update_new_parent hfind hfresh hp hP children images titles]
          refine hproj _ ?_
          have hpre : (findA i (modifyA pid (pushChild g.next_link_id) g.links)).map
              (fun y => (y.id, y.url)) = some (l.id, l.url) := by
            rw [findA_modifyA_map _ (hpush _), h]
            rfl
          cases hfa : findA i (modifyA pid (pushChild g.next_link_id) g.links) with
          | none => rw [hfa] at hpre; simp at hpre
          | some l' =>
              rw [hfa] at hpre
              show (findA i (modifyA pid (pushChild g.next_link_id) g.links ++
                  [(g.next_link_id, extendLink (some pid)
                    (children.filterMap (fun c => findA c g.link_ids)) images titles
                    (newLinkFor url g.next_link_id))])).map
                  (fun y => (y.id, y.url)) = some (l.id, l.url)
              rw [findA_append_of_some hfa]
              exact hpre

@[simp] theorem applyUpdates_nil (g : LinkGraph) : applyUpdates g [] = g := rfl

theorem applyUpdates_cons (g : LinkGraph) (c : UpdateCall) (cs : List UpdateCall) :
    applyUpdates g (c :: cs) =
      applyUpdates (g.update c.url c.parent c.children c.images c.titles).1 cs := rfl

theorem wf_applyUpdates {g : LinkGraph} (hwf : wf g) (cs : List UpdateCall) :
    wf (applyUpdates g cs) := by
  induction cs generalizing g with
  | nil => exact hwf
  | cons c cs ih => exact ih (wf_update hwf c.url c.parent c.children c.images c.titles)

theorem applyUpdates_ids_stable {g : LinkGraph} (hwf : wf g) {u : String} {i : LinkId}
    (h : findA u g.link_ids = some i) (cs : List UpdateCall) :
    findA u (applyUpdates g cs).link_ids = some i := by
  induction cs generalizing g with
  | nil => exact h
  | cons c cs ih =>
      exact ih (wf_update hwf c.url c.parent c.children c.images c.titles)
        (update_ids_stable hwf h c.url c.parent c.children c.images c.titles)

theorem applyUpdates_record_stable {g : LinkGraph} (hwf : wf g) {i : LinkId} {l : Link}
    (h : findA i g.links = some l) (cs : List UpdateCall) :
    ∃ l', findA i (applyUpdates g cs).links = some l' ∧ l'.id = l.id ∧ l'.url = l.url := by
  induction cs generalizing g l with
  | nil => exact ⟨l, h, rfl, rfl⟩
  | cons c cs ih =>
      obtain ⟨l1, h1, hid1, hurl1⟩ :=
        update_record_stable hwf h c.url c.parent c.children c.images c.titles
      obtain ⟨l', h', hid', hurl'⟩ :=
        ih (wf_update hwf c.url c.parent c.children c.images c.titles) h1
      exact ⟨l', h', hid'.trans hid1, hurl'.trans hurl1⟩

theorem applyUpdates_len_mono {g : LinkGraph} (hwf : wf g) (cs : List UpdateCall) :
    g.len ≤ (applyUpdates g cs).len := by
  induction cs generalizing g with
  | nil => exact le_refl _
  | cons c cs ih =>
      have hstep : g.len ≤ (g.update c.url c.parent c.children c.images c.titles).1.len := by
        rw [update_len hwf c.url c.parent c.children c.images c.titles]
        cases findA c.url g.link_ids with
        | some lid => exact le_refl _
        | none => exact Nat.le_succ _
      exact le_trans hstep (ih (wf_update hwf c.url c.parent c.children c.images c.titles))

theorem applyUpdates_url_keys {g : LinkGraph} (hwf : wf g) (cs : List UpdateCall) :
    ((applyUpdates g cs).link_ids.map Prod.fst).toFinset =
      (g.link_ids.map Prod.fst).toFinset ∪ (cs.map UpdateCall.url).toFinset := by
  induction cs generalizing g with
  | nil => simp
  | cons c cs ih =>
      rw [applyUpdates_cons, ih (wf_update hwf c.url c.parent c.children c.images c.titles),
        update_link_ids hwf c.url c.parent c.children c.images c.titles]
      cases hfind : findA c.url g.link_ids with
      | some lid =>
          have hmem : c.url ∈ g.link_ids.map Prod.fst :=
            findA_isSome_iff.mp (by rw [hfind]; rfl)
          ext x
          simp only [List.map_cons, List.toFinset_cons, Finset.mem_union,
            List.mem_toFinset, Finset.mem_insert]
          constructor
          · rintro (h | h)
            · exact Or.inl h
            · exact Or.inr (Or.inr h)
          · rintro (h | h | h)
            · exact Or.inl h
            · exact Or.inl (h ▸ hmem)
            · exact Or.inr h
      | none =>
          ext x
          simp only [List.map_append, List.toFinset_append, List.map_cons,
            List.toFinset_cons, Finset.mem_union, List.mem_toFinset, Finset.mem_insert,
            List.map_nil, List.toFinset_nil, Finset.not_mem_empty, or_false,
            List.mem_singleton]
          constructor
          · rintro ((h | h) | h)
            · exact Or.inl h
            · exact Or.inr (Or.inl h)
            · exact Or.inr (Or.inr h)
          · rintro (h | h | h)
            · exact Or.inl (Or.inl h)
            · exact Or.inl (Or.inr h)
            · exact Or.inr h

/-- The `Link` record currently stored for `url`: resolve `url` through
`link_ids`, then look the id up in `links`. -/
def urlRecord (g : LinkGraph) (url : String) : Option Link :=
  (findA url g.link_ids).bind (fun i => findA i g.links)

/-- What one `update(url, parent, children, images, titles)` call does to the
graph, phrased record-by-record: the call succeeds; afterwards `url` holds a
record `L'` whose `parents` gained the parent's pre-call id (when assigned),
whose `children` gained exactly the pre-call ids of `children` (plus `url`'s
own id when `parent = url` is already assigned, from the parent push), and
whose `images`/`titles` gained the passed lists; and a distinct parent's
record gained `L'.id` at the end of its `children`. -/
def MergeSpec (g : LinkGraph) (url parent : String) (children : List String)
    (images : List Image) (titles : List String) : Prop :=
  ∃ L', urlRecord (g.update url parent children images titles).1 url = some L' ∧
    L'.parents = ((urlRecord g url).elim [] Link.parents)
      ++ (findA parent g.link_ids).toList ∧
    (findA parent g.link_ids = some L'.id → L'.children =
      ((urlRecord g url).elim [] Link.children)
      ++ children.filterMap (fun c => findA c g.link_ids) ++ [L'.id]) ∧
    (findA parent g.link_ids ≠ some L'.id → L'.children =
      ((urlRecord g url).elim [] Link.children)
      ++ children.filterMap (fun c => findA c g.link_ids)) ∧
    L'.images = ((urlRecord g url).elim [] Link.images) ++ images ∧
    L'.titles = ((urlRecord g url).elim [] Link.titles) ++ titles ∧
    (∀ pid, findA parent g.link_ids = some pid → pid ≠ L'.id →
      ∃ p p', findA pid g.links = some p ∧
        findA pid (g.update url parent children images titles).1.links = some p' ∧
        p'.children = p.children ++ [L'.id] ∧ p'.parents = p.parents)

theorem merge_seen_noparent {g : LinkGraph} {url parent : String} {lid : LinkId} {l : Link}
    (hwf : wf g) (hfind : findA url g.link_ids = some lid) (hl : findA lid g.links = some l)
    (hp : findA parent g.link_ids = none)
    (children : List String) (images : List Image) (titles : List String) :
    MergeSpec g url parent children images titles := by
  obtain ⟨-, -, -, h4, -⟩ := hwf
  have hlid : l.id = lid := h4 (lid, l) (findA_mem hl)
  unfold MergeSpec urlRecord
  rw [update_seen_noparent hfind hl hp children images titles]
  dsimp only
  rw [hfind, hp]
  dsimp only [Option.bind, Option.toList, Option.elim]
  rw [hl]
  refine ⟨extendLink none (children.filterMap (fun c => findA c g.link_ids)) images titles l,
    ?_, ?_, ?_, ?_, ?_, ?_, ?_⟩
  · rw [findA_modifyA_self, hl]
    rfl
  · rfl
  · intro h
    exact absurd h (by simp)
  · intro _
    rfl
  · rfl
  · rfl
  · intro pid h
    exact absurd h (by simp)

theorem merge_seen_parent {g : LinkGraph} {url parent : String} {lid pid : LinkId}
    {l P : Link}
    (hwf : wf g) (hfind : findA url g.link_ids = some lid) (hl : findA lid g.links = some l)
    (hp : findA parent g.link_ids = some pid) (hP : findA pid g.links = some P)
    (children : List String) (images : List Image) (titles : List String) :
    MergeSpec g url parent children images titles := by
  obtain ⟨-, -, -, h4, -⟩ := hwf
  have hlid : l.id = lid := h4 (lid, l) (findA_mem hl)
  unfold MergeSpec urlRecord
  rw [update_seen_parent hfind hl hp hP children images titles]
  dsimp only
  rw [hfind, hp]
  dsimp only [Option.bind, Option.toList, Option.elim]
  rw [hl]
  by_cases hpl : pid = lid
  · subst hpl
    have hPl : P = l := Option.some_inj.mp (hP.symm.trans hl)
    subst hPl
    refine ⟨pushChild pid (extendLink (some pid)
      (children.filterMap (fun c => findA c g.link_ids)) images titles P),
      ?_, ?_, ?_, ?_, ?_, ?_, ?_⟩
    · rw [findA_modifyA_self, findA_modifyA_self, hl]
      rfl
    · rfl
    · intro _
      dsimp only [pushChild, extendLink]
      rw [hlid]
    · intro h
      exact absurd (by dsimp only [pushChild, extendLink]; rw [hlid]) h
    · rfl
    · rfl
    · intro pid' h hne
      have hpe : pid = pid' := Option.some_inj.mp h
      subst hpe
      exact absurd (by dsimp only [pushChild, extendLink]; rw [hlid]) hne
  · refine ⟨extendLink (some pid)
      (children.filterMap (fun c => findA c g.link_ids)) images titles l,
      ?_, ?_, ?_, ?_, ?_, ?_, ?_⟩
    · rw [findA_modifyA_ne _ _ (fun hh => hpl hh.symm), findA_modifyA_self, hl]
      rfl
    · rfl
    · intro h
      have h' : pid = l.id := Option.some_inj.mp h
      exact absurd (h'.trans hlid) hpl
    · intro _
      rfl
    · rfl
    · rfl
    · intro pid' h hne
      have hpe : pid = pid' := Option.some_inj.mp h
      subst hpe
      refine ⟨P, pushChild lid P, hP, ?_, ?_, rfl⟩
      · rw [findA_modifyA_self, findA_modifyA_ne _ _ hpl, hP]
        rfl
      · dsimp only [pushChild, extendLink]
        rw [hlid]

theorem merge_new_noparent {g : LinkGraph} {url parent : String}
    (hwf : wf g) (hfind : findA url g.link_ids = none)
    (hp : findA parent g.link_ids = none)
    (children : List String) (images : List Image) (titles : List String) :
    MergeSpec g url parent children images titles := by
  have hfresh := wf_fresh hwf
  unfold MergeSpec urlRecord
  rw [update_new_noparent hfind hfresh hp children images titles]
  dsimp only
  rw [hfind, hp]
  dsimp only [Option.bind, Option.toList, Option.elim]
  rw [findA_append_of_none hfind, findA_single]
  dsimp only [Option.bind]
  refine ⟨extendLink none (children.filterMap (fun c => findA c g.link_ids)) images titles
    (newLinkFor url g.next_link_id), ?_, ?_, ?_, ?_, ?_, ?_, ?_⟩
  · rw [findA_append_of_none hfresh, findA_single]
  · rfl
  · intro h
    exact absurd h (by simp)
  · intro _
    rfl
  · rfl
  · rfl
  · intro pid h
    exact absurd h (by simp)

theorem merge_new_parent {g : LinkGraph} {url parent : String} {pid : LinkId} {P : Link}
    (hwf : wf g) (hfind : findA url g.link_ids = none)
    (hp : findA parent g.link_ids = some pid) (hP : findA pid g.links = some P)
    (children : List String) (images : List Image) (titles : List String) :
    MergeSpec g url parent children images titles := by
  have hfresh := wf_fresh hwf
  have hne : pid ≠ g.next_link_id := by
    intro h
    rw [h, hfresh] at hP
    exact Option.noConfusion hP
  unfold MergeSpec urlRecord
  rw [update_new_parent hfind hfresh hp hP children images titles]
  dsimp only
  rw [hfind, hp]
  dsimp only [Option.bind, Option.toList, Option.elim]
  rw [findA_append_of_none hfind, findA_single]
  dsimp only [Option.bind]
  refine ⟨extendLink (some pid) (children.filterMap (fun c => findA c g.link_ids))
    images titles (newLinkFor url g.next_link_id), ?_, ?_, ?_, ?_, ?_, ?_, ?_⟩
  · have hpre : findA g.next_link_id (modifyA pid (pushChild g.next_link_id) g.links) =
        none := by
      rw [findA_modifyA_ne _ _ (fun hh => hne hh.symm)]
      exact hfresh
    rw [findA_append_of_none hpre, findA_single]
  · rfl
  · intro h
    exact absurd (Option.some_inj.mp h) (by dsimp only [extendLink, newLinkFor]; exact hne)
  · intro _
    rfl
  · rfl
  · rfl
  · intro pid' h hne2
    have hpe : pid = pid' := Option.some_inj.mp h
    subst hpe
    refine ⟨P, pushChild g.next_link_id P, hP, ?_, ?_, rfl⟩
    · have hmp : findA pid (modifyA pid (pushChild g.next_link_id) g.links) =
          some (pushChild g.next_link_id P) := by
        rw [findA_modifyA_self, hP]
        rfl
      rw [findA_append_of_some hmp]
    · rfl

/-- C3: for every well-formed graph state and every call
`update(url, parent_url, discovered_children, images, titles)`: if
`parent_url` has an assigned `LinkId` then that id is appended to `url`'s
`parents` and `url`'s `LinkId` is appended to the parent's `children`; the
ids appended to `url`'s `children` are exactly those `discovered_children`
that already had an assigned `LinkId` at merge time (resolved before `url`'s
own record is created, so a first-time self-link is not recorded); and
`images` and `titles` are appended to `url`'s record. -/
theorem C3_update_merge (g : LinkGraph) (url parent : String) (children : List String)
    (images : List Image) (titles : List String) (hwf : wf g) :
    MergeSpec g url parent children images titles := by
  cases hfind : findA url g.link_ids with
  | some lid =>
      obtain ⟨l, hl, -⟩ := wf_url_record hwf hfind
      cases hp : findA parent g.link_ids with
      | none => exact merge_seen_noparent hwf hfind hl hp children images titles
      | some pid =>
          obtain ⟨P, hP, -⟩ := wf_url_record hwf hp
          exact merge_seen_parent hwf hfind hl hp hP children images titles
  | none =>
      cases hp : findA parent g.link_ids with
      | none => exact merge_new_noparent hwf hfind hp children images titles
      | some pid =>
          obtain ⟨P, hP, -⟩ := wf_url_record hwf hp
          exact merge_new_parent hwf hfind hp hP children images titles

/-- Witness for C3 on a concrete graph holding `"a"`, merging page `"b"`
with parent `"a"` and a discovered child `"a"`. -/
theorem C3_update_merge_witness :
    MergeSpec (applyCalls [⟨"a", "", [], [], []⟩]) "b" "a" ["a"]
      [⟨"i", "alt"⟩] ["t"] :=
  C3_update_merge (applyCalls [⟨"a", "", [], [], []⟩]) "b" "a" ["a"]
    [⟨"i", "alt"⟩] ["t"] (by decide)

/-- C4: identity uniqueness — once a URL maps to a `LinkId`, no later
sequence of `update` calls changes that mapping, and after any sequence of
calls no `LinkId` is shared by two different URLs; hence exactly one
`LinkId` is ever assigned to each distinct URL. -/
theorem C4_identity_uniqueness (g : LinkGraph) (hwf : wf g) (cs : List UpdateCall) :
    (∀ url i, findA url g.link_ids = some i →
      findA url (applyUpdates g cs).link_ids = some i) ∧
    (∀ u1 u2 i, findA u1 (applyUpdates g cs).link_ids = some i →
      findA u2 (applyUpdates g cs).link_ids = some i → u1 = u2) := by
  constructor
  · intro url i h
    exact applyUpdates_ids_stable hwf h cs
  · have hwfG := wf_applyUpdates hwf cs
    obtain ⟨-, -, -, -, -, h6, -⟩ := hwfG
    intro u1 u2 i h1 h2
    exact h6 (u1, i) (findA_mem h1) (u2, i) (findA_mem h2) rfl

/-- Witness for C4: the id assigned to `"a"` survives a later update. -/
theorem C4_identity_uniqueness_witness :
    findA "a" (applyUpdates (applyCalls [⟨"a", "", [], [], []⟩])
      [⟨"b", "a", [], [], []⟩]).link_ids = some 0 :=
  (C4_identity_uniqueness (applyCalls [⟨"a", "", [], [], []⟩]) (by decide)
    [⟨"b", "a", [], [], []⟩]).1 "a" 0 (by decide)

/-- C5: monotonic growth — across any sequence of `update` calls no `Link`
record is removed and no `LinkId` is reassigned to a different page (its
record keeps its `id` and `url`), and `len()` is non-decreasing. -/
theorem C5_monotonic_growth (g : LinkGraph) (hwf : wf g) (cs : List UpdateCall) :
    (∀ i l, findA i g.links = some l →
      ∃ l', findA i (applyUpdates g cs).links = some l' ∧
        l'.id = l.id ∧ l'.url = l.url) ∧
    g.len ≤ (applyUpdates g cs).len := by
  constructor
  · intro i l h
    exact applyUpdates_record_stable hwf h cs
  · exact applyUpdates_len_mono hwf cs

/-- Witness for C5: `len` does not decrease across a further update. -/
theorem C5_monotonic_growth_witness :
    (applyCalls [⟨"a", "", [], [], []⟩]).len ≤
      (applyUpdates (applyCalls [⟨"a", "", [], [], []⟩])
        [⟨"b", "a", [], [], []⟩]).len :=
  (C5_monotonic_growth (applyCalls [⟨"a", "", [], [], []⟩]) (by decide)
    [⟨"b", "a", [], [], []⟩]).2

/-- C6: edge validity — starting from the empty `LinkGraph`, after any
sequence of `update` calls every `LinkId` appearing in any record's
`children` or `parents` list is a key of the id-to-`Link` map. -/
theorem C6_edge_validity (cs : List UpdateCall) :
    ∀ p ∈ (applyCalls cs).links, ∀ e ∈ p.2.children ++ p.2.parents,
      (findA e (applyCalls cs).links).isSome = true := by
  have hwfG := wf_applyUpdates wf_empty cs
  obtain ⟨-, -, -, -, -, -, -, h8, -⟩ := hwfG
  exact h8

/-- Witness for C6: in a concrete two-page crawl the edge stored for page
`"b"` points at an existing record. -/
theorem C6_edge_validity_witness :
    (findA 0 (applyCalls [⟨"a", "", [], [], []⟩,
      ⟨"b", "a", ["a"], [], []⟩]).links).isSome = true :=
  C6_edge_validity [⟨"a", "", [], [], []⟩, ⟨"b", "a", ["a"], [], []⟩]
    (1, ⟨1, "b", [0], [0], [], []⟩) (by decide) 0 (by decide)

/-- C7: idempotent re-merge — repeating an immediately preceding successful
`update` with identical arguments succeeds again, assigns no new `LinkId`
(the url-to-id map and the id counter are unchanged), leaves `len()`
unchanged, and preserves identity uniqueness and edge validity; duplicate
entries inside `children`/`parents`/`images`/`titles` lists are the
acknowledged open question, not corruption. -/
theorem C7_idempotent_remerge (g g1 : LinkGraph) (c : UpdateCall) (hwf : wf g)
    (h1 : g.update c.url c.parent c.children c.images c.titles = (g1, Except.ok ())) :
    (g1.update c.url c.parent c.children c.images c.titles).2 = Except.ok () ∧
    (g1.update c.url c.parent c.children c.images c.titles).1.len = g1.len ∧
    (g1.update c.url c.parent c.children c.images c.titles).1.link_ids = g1.link_ids ∧
    (g1.update c.url c.parent c.children c.images c.titles).1.next_link_id =
      g1.next_link_id ∧
    (∀ u1 u2 i,
      findA u1 (g1.update c.url c.parent c.children c.images c.titles).1.link_ids =
        some i →
      findA u2 (g1.update c.url c.parent c.children c.images c.titles).1.link_ids =
        some i → u1 = u2) ∧
    (∀ p ∈ (g1.update c.url c.parent c.children c.images c.titles).1.links,
      ∀ e ∈ p.2.children ++ p.2.parents,
      (findA e (g1.update c.url c.parent c.children c.images c.titles).1.links).isSome =
        true) := by
  have hwf1 : wf g1 := by
    have h := wf_update hwf c.url c.parent c.children c.images c.titles
    rw [h1] at h
    exact h
  have hfind1 : ∃ lid, findA c.url g1.link_ids = some lid := by
    have h := update_link_ids hwf c.url c.parent c.children c.images c.titles
    rw [h1] at h
    cases hfind : findA c.url g.link_ids with
    | some lid =>
        rw [hfind] at h
        exact ⟨lid, h ▸ hfind⟩
    | none =>
        rw [hfind] at h
        refine ⟨g.next_link_id, ?_⟩
        rw [h, findA_append_of_none hfind, findA_single]
  obtain ⟨lid, hfind1⟩ := hfind1
  have hwf2 := wf_update hwf1 c.url c.parent c.children c.images c.titles
  refine ⟨update_ok hwf1 c.url c.parent c.children c.images c.titles, ?_, ?_, ?_, ?_, ?_⟩
  · rw [update_len hwf1 c.url c.parent c.children c.images c.titles, hfind1]
  · rw [update_link_ids hwf1 c.url c.parent c.children c.images c.titles, hfind1]
  · rw [update_next_link_id hwf1 c.url c.parent c.children c.images c.titles, hfind1]
  · obtain ⟨-, -, -, -, -, h6, -⟩ := hwf2
    intro u1 u2 i hu1 hu2
    exact h6 (u1, i) (findA_mem hu1) (u2, i) (findA_mem hu2) rfl
  · obtain ⟨-, -, -, -, -, -, -, h8, -⟩ := hwf2
    exact h8

/-- Witness for C7: re-merging page `"b"` with identical arguments leaves
`len` unchanged on a concrete graph. -/
theorem C7_idempotent_remerge_witness :
    ((((applyCalls [⟨"a", "", [], [], []⟩]).update "b" "a" ["a"] [] []).1.update
      "b" "a" ["a"] [] []).1).len =
      (((applyCalls [⟨"a", "", [], [], []⟩]).update "b" "a" ["a"] [] []).1).len :=
  (C7_idempotent_remerge (applyCalls [⟨"a", "", [], [], []⟩])
    (((applyCalls [⟨"a", "", [], [], []⟩]).update "b" "a" ["a"] [] []).1)
    ⟨"b", "a", ["a"], [], []⟩ (by decide) (by rfl)).2.1

/-- C10: internal map consistency — from the empty graph, after any sequence
of `update` calls the ids stored in the url-to-id map are exactly the keys
of the id-to-`Link` map, the two maps have equal cardinality, each record's
`id` field equals its key, `len()` equals the number of distinct URLs passed
to `update`, and a further `update` never returns the
`could not find parent link` / `failed to get link` consistency errors. -/
theorem C10_internal_consistency (cs : List UpdateCall) :
    ((applyCalls cs).link_ids.map Prod.snd).toFinset =
      ((applyCalls cs).links.map Prod.fst).toFinset ∧
    (applyCalls cs).links.length = (applyCalls cs).link_ids.length ∧
    (∀ p ∈ (applyCalls cs).links, p.2.id = p.1) ∧
    (applyCalls cs).len = (cs.map UpdateCall.url).toFinset.card ∧
    (∀ c : UpdateCall,
      ((applyCalls cs).update c.url c.parent c.children c.images c.titles).2 =
        Except.ok ()) := by
  have hwfG : wf (applyCalls cs) := wf_applyUpdates wf_empty cs
  have hcopy := hwfG
  obtain ⟨h1, h2, h3, h4, h5, h6, h7, h8, h9⟩ := hcopy
  refine ⟨?_, h9, h4, ?_, ?_⟩
  · ext x
    simp only [List.mem_toFinset, List.mem_map]
    constructor
    · rintro ⟨q, hq, rfl⟩
      have h := h5 q hq
      cases hfa : findA q.2 (applyCalls cs).links with
      | none => rw [hfa] at h; simp at h
      | some l => exact ⟨(q.2, l), findA_mem hfa, rfl⟩
    · rintro ⟨p, hp, rfl⟩
      exact ⟨(p.2.url, p.1), findA_mem (h7 p hp), rfl⟩
  · have hkeys : ((applyCalls cs).link_ids.map Prod.fst).toFinset =
        (emptyGraph.link_ids.map Prod.fst).toFinset ∪ (cs.map UpdateCall.url).toFinset :=
      applyUpdates_url_keys wf_empty cs
    rw [show ((emptyGraph.link_ids.map Prod.fst).toFinset : Finset String) = ∅ from rfl,
      Finset.empty_union] at hkeys
    have hlen : (applyCalls cs).len = ((applyCalls cs).link_ids.map Prod.fst).length := by
      rw [List.length_map]
      exact h9
    rw [hlen, ← hkeys, List.toFinset_card_of_nodup h2]
  · intro c
    exact update_ok hwfG c.url c.parent c.children c.images c.titles

/-- Witness instance of C10 on a concrete two-call sequence. -/
theorem C10_internal_consistency_witness :
    (applyCalls [⟨"a", "", [], [], []⟩, ⟨"b", "a", ["a"], [], []⟩]).links.length =
      (applyCalls [⟨"a", "", [], [], []⟩, ⟨"b", "a", ["a"], [], []⟩]).link_ids.length :=
  (C10_internal_consistency [⟨"a", "", [], [], []⟩, ⟨"b", "a", ["a"], [], []⟩]).2.1

/-- Modelled from the spec: a value of the external `url` crate's `Url`
type (URL parsing/resolution is an out-of-scope collaborator per the spec).
A `Url` value is an absolute URL: a nonempty scheme plus the remainder. -/
structure Url where
  scheme : String
  rest : String
  deriving DecidableEq, Repr

/-- Render a `Url` back to its string form. -/
def Url.toString (u : Url) : String := u.scheme ++ ":" ++ u.rest

/-- Split a character list at the first colon, returning the (colon-free)
characters before it and the characters after it; `none` when there is no
colon at all. -/
def schemeSplit : List Char → Option (List Char × List Char)
  | [] => none
  | c :: rest =>
      if c = ':' then some ([], rest)
      else
        match schemeSplit rest with
        | some (sch, r) => some (c :: sch, r)
        | none => none

/-- Modelled from the spec: `url::Url::parse` succeeds exactly on absolute
URL strings — those with a nonempty scheme before a colon. A string without
one, such as the empty string, fails (`RelativeUrlWithoutBase`). -/
def urlParse (s : String) : Option Url :=
  match schemeSplit s.data with
  | none => none
  | some (sch, r) =>
      if sch.isEmpty then none
      else some { scheme := String.mk sch, rest := String.mk r }

/-- Modelled from the spec: `Url::join`, resolving a possibly relative path
against a base URL: keep the base up to its last slash, append the path;
the result stays absolute under the base's scheme. -/
def Url.join (root : Url) (path : String) : Option Url :=
  some { scheme := root.scheme,
         rest := String.mk
           ((root.rest.data.reverse.dropWhile (fun c => c ≠ '/')).reverse ++ path.data) }

/-- Embedding of `get_url` (`src/crawler.rs`): parse `path` as an absolute
URL on its own; otherwise join it onto `root_url`, erroring if that fails. -/
def get_url (path : String) (root_url : Url) : Except String Url :=
  match urlParse path with
  | some url => Except.ok url
  | none =>
      match root_url.join path with
      | some u => Except.ok u
      | none => Except.error "could not join relative path"

/-- Embedding of `ScrapeOption` (`src/crawler.rs`). -/
inductive ScrapeOption where
  | Images
  | Titles
  deriving DecidableEq, Repr

/-- Embedding of `ScrapeOutput` (`src/crawler.rs`). -/
structure ScrapeOutput where
  links : List String
  images : List Image
  titles : List String
  deriving DecidableEq, Repr

/-- What the HTTP fetch plus DOM parse of one page yields before the
crawler's own processing: the `href` of each anchor, the `(src, alt)` of
each `img[src]`, and the text of each `h1`/`h2`/`title` tag, in document
order. A failed fetch (network error, non-OK status, body read error) is an
`Except.error`, matching the fallible part of `scrape_page_helper`. -/
structure PageData where
  hrefs : List String
  imgSrcs : List (String × String)
  pageTitles : List String
  deriving DecidableEq, Repr

/-- Embedding of `get_images` (`src/crawler.rs`): each `img[src]` becomes an
`Image` whose link is resolved to absolute form against the page URL;
images whose URL fails to resolve are logged and skipped. -/
def get_images (imgSrcs : List (String × String)) (root_url : Url) : List Image :=
  imgSrcs.filterMap (fun p =>
    match get_url p.1 root_url with
    | Except.ok absolute_url => some { link := absolute_url.toString, alt := p.2 }
    | Except.error _ => none)

/-- Embedding of `get_titles` (`src/crawler.rs`): the text of the page's
`h1`, `h2` and `title` tags — delivered by the DOM layer. -/
def get_titles (pd : PageData) : List String := pd.pageTitles

/-- Embedding of `scrape_page_helper` (`src/crawler.rs`): fail when the
fetch failed; otherwise collect every anchor's href as the links, then run
the option loop filling images and titles. -/
def scrape_page_helper (url : Url) (response : Except String PageData)
    (options : List ScrapeOption) : Except String ScrapeOutput :=
  match response with
  | Except.error e => Except.error e
  | Except.ok pd =>
      let links := pd.hrefs
      let acc := options.foldl (fun (acc : List Image × List String) option =>
        match option with
        | ScrapeOption.Images => (get_images pd.imgSrcs url, acc.2)
        | ScrapeOption.Titles => (acc.1, get_titles pd)) ([], [])
      Except.ok { links := links, images := acc.1, titles := acc.2 }

/-- Embedding of `scrape_page` (`src/crawler.rs`): on any helper failure
log and fall back to empty collections; then rewrite the link list, turning
every href into an absolute URL resolved against the fetched URL and
dropping hrefs that fail to resolve. -/
def scrape_page (url : Url) (response : Except String PageData)
    (options : List ScrapeOption) : ScrapeOutput :=
  let scrape_output :=
    match scrape_page_helper url response options with
    | Except.ok output => output
    | Except.error _ => { links := [], images := [], titles := [] }
  { scrape_output with links := scrape_output.links.filterMap (fun l =>
      match get_url l url with
      | Except.ok u => some u.toString
      | Except.error _ => none) }

/-- C2: `scrape_page` never raises (its type is total): when the underlying
fetch/extract step fails it returns a `ScrapeOutput` with empty links,
images and titles; and on success every string in the returned links list
is the rendering of an absolute `Url` produced by resolving one of the
page's hrefs against the fetched URL via `get_url`. -/
theorem C2_scrape_page_total (url : Url) (e : String) (pd : PageData)
    (options : List ScrapeOption) :
    scrape_page url (Except.error e) options =
      { links := [], images := [], titles := [] } ∧
    (∀ s ∈ (scrape_page url (Except.ok pd) options).links,
      ∃ href ∈ pd.hrefs, ∃ u : Url,
        get_url href url = Except.ok u ∧ s = u.toString) := by
  constructor
  · rfl
  · intro s hs
    have hlinks : (scrape_page url (Except.ok pd) options).links =
        pd.hrefs.filterMap (fun l =>
          match get_url l url with
          | Except.ok u => some u.toString
          | Except.error _ => none) := rfl
    rw [hlinks] at hs
    obtain ⟨href, hhref, hmap⟩ := List.mem_filterMap.mp hs
    refine ⟨href, hhref, ?_⟩
    cases hres : get_url href url with
    | ok u =>
        rw [hres] at hmap
        exact ⟨u, rfl, (Option.some_inj.mp hmap).symm⟩
    | error msg =>
        rw [hres] at hmap
        exact absurd hmap (by simp)

/-- Witness for C2 on a concrete page with one relative and one absolute
href: a failing fetch yields the empty output, and each returned link comes
from resolving an href. -/
theorem C2_scrape_page_total_witness :
    scrape_page ⟨"https", "//e.com/p/q"⟩ (Except.error "timeout")
      [ScrapeOption.Images, ScrapeOption.Titles] =
      { links := [], images := [], titles := [] } ∧
    ∃ href ∈ (PageData.mk ["r", "https://x.org/y"] [] []).hrefs, ∃ u : Url,
      get_url href ⟨"https", "//e.com/p/q"⟩ = Except.ok u ∧
      "https://e.com/p/r" = u.toString :=
  ⟨(C2_scrape_page_total ⟨"https", "//e.com/p/q"⟩ "timeout"
      ⟨["r", "https://x.org/y"], [], []⟩ [ScrapeOption.Images, ScrapeOption.Titles]).1,
   (C2_scrape_page_total ⟨"https", "//e.com/p/q"⟩ "timeout"
      ⟨["r", "https://x.org/y"], [], []⟩ [ScrapeOption.Images, ScrapeOption.Titles]).2
     "https://e.com/p/r" (by decide)⟩

/-- Embedding of `LinkPath` — a frontier entry. Modelled from the spec: the
module defining it in the current crate is not among the sources; per the
spec it is a `parent` URL (empty/absent for the seed, which is what
`Default::default()` yields for a Rust `String`) and a `child` URL. -/
structure LinkPath where
  parent : String
  child : String
  deriving DecidableEq, Repr

/-- The `LinkPath::default()` value: both strings empty. -/
def LinkPath.default : LinkPath := { parent := "", child := "" }

/-- Embedding of the `CrawlerState` shared by the workers of `src/main.rs`:
the frontier deque of `LinkPath`s, the link graph, and the immutable
budget. The `RwLock`/`Arc` wrappers only mediate concurrent access; one
worker's loop body sees this state. -/
structure CrawlerState where
  link_queue : List LinkPath
  link_graph : LinkGraph
  max_links : Nat

/-- Outcome of one iteration of the `crawl` worker loop of `src/main.rs`:
the worker breaks out of the loop (its terminal state), returns an error
through `?` before any fetch, or completes the iteration — having fetched
`fetchedUrl` — and goes back to the budget check with the new state. -/
inductive IterResult where
  | terminated
  | errored (msg : String)
  | continued (st : CrawlerState) (fetchedUrl : String)

/-- Embedding of one iteration of `crawl` (`src/main.rs` lines 84–122),
with `client` abstracting the per-worker HTTP client. Read `len()` and
break when it exceeds the budget; pop the back of the frontier,
substituting `LinkPath::default()` when it is empty; `Url::parse(&child)?`
propagates a parse failure out of the loop; otherwise scrape the page with
the Images and Titles options, push each not-yet-visited discovered link
onto the frontier, merge into the graph via `update` (an `update` error is
only logged), and continue. -/
def crawlIter (client : String → Except String PageData) (st : CrawlerState) :
    IterResult :=
  let number_links_found := st.link_graph.len
  if number_links_found > st.max_links then IterResult.terminated
  else
    let step := fun (lp : LinkPath) (q1 : List LinkPath) =>
      match urlParse lp.child with
      | none => IterResult.errored "relative URL without a base"
      | some url =>
          let scrape_output := scrape_page url (client lp.child)
            [ScrapeOption.Images, ScrapeOption.Titles]
          let q2 := scrape_output.links.foldl (fun q link =>
            if st.link_graph.link_visited link then q
            else push_back q { parent := lp.child, child := link }) q1
          let g2 := (st.link_graph.update lp.child lp.parent scrape_output.links
            scrape_output.images scrape_output.titles).1
          IterResult.continued { st with link_queue := q2, link_graph := g2 } lp.child
    match pop_back st.link_queue with
    | some (lp, q1) => step lp q1
    | none => step LinkPath.default st.link_queue

/-- Embedding of the worker state of `rusty_crawler/src/crawler.rs`: the
frontier of URL strings, the set of already visited URLs (a `HashSet`,
embedded as its list of distinct members), and the budget. -/
structure CrawlerStateOld where
  link_queue : List String
  already_visited : List String
  max_links : Nat

/-- Insert into the visited `HashSet`: a no-op when already present. -/
def insertSet (x : String) (s : List String) : List String :=
  if s.contains x then s else s ++ [x]

/-- Outcome of one iteration of the `crawl` loop of
`rusty_crawler/src/crawler.rs`: break out (terminal), sleep `sleepMillis`
milliseconds and return to the budget check (the WAIT state), propagate an
error, or complete a visit of `fetchedUrl`. -/
inductive IterResultOld where
  | terminated
  | wait (sleepMillis : Nat) (st : CrawlerStateOld)
  | errored (msg : String)
  | continued (st : CrawlerStateOld) (fetchedUrl : String)

/-- Embedding of one iteration of `crawl`
(`rusty_crawler/src/crawler.rs` lines 87–121): break when the visited count
exceeds the budget; pop the back of the queue substituting `""` when it is
empty; on an empty URL sleep 500ms and continue; otherwise
`Url::parse(&url_str)?`, fetch the page's links through `find_links`
(which never fails — it degrades to no links, logging the error), enqueue
the not-yet-visited ones and insert the URL into the visited set. -/
def crawlIterOld (find_links : String → List String) (st : CrawlerStateOld) :
    IterResultOld :=
  if st.already_visited.length > st.max_links then IterResultOld.terminated
  else
    let step := fun (url_str : String) (q1 : List String) =>
      if url_str = "" then IterResultOld.wait 500 { st with link_queue := q1 }
      else
        match urlParse url_str with
        | none => IterResultOld.errored "relative URL without a base"
        | some _ =>
            let links := find_links url_str
            let q2 := links.foldl (fun q link =>
              if st.already_visited.contains link then q else push_back q link) q1
            IterResultOld.continued
              { st with link_queue := q2,
                        already_visited := insertSet url_str st.already_visited } url_str
    match pop_back st.link_queue with
    | some (url_str, q1) => step url_str q1
    | none => step "" st.link_queue

/-- Counterexample to C1 as stated: in the `src/main.rs` crawl loop, a
worker that observes an empty frontier (budget not yet reached) does not
sleep — the defaulted empty child URL fails `Url::parse` and the `?` makes
the worker return an error. -/
theorem C1_empty_frontier_counterexample :
    crawlIter (fun _ => Except.error "offline")
      { link_queue := [], link_graph := emptyGraph, max_links := 100 } =
      IterResult.errored "relative URL without a base" := by
  rfl

/-- C1 (amended): in the `rusty_crawler/src/crawler.rs` crawl loop, a pop
from an empty frontier yields nothing rather than an error and the worker
sleeps a fixed 500ms and returns to the budget check; in the `src/main.rs`
crawl loop, the pop instead yields a default `LinkPath` whose empty child
URL fails `Url::parse`, and the worker returns that error and terminates. -/
theorem C1_empty_frontier_amended :
    (∀ (find_links : String → List String) (st : CrawlerStateOld),
      st.link_queue = [] → ¬st.already_visited.length > st.max_links →
      crawlIterOld find_links st = IterResultOld.wait 500 st) ∧
    (∀ (client : String → Except String PageData) (st : CrawlerState),
      st.link_queue = [] → ¬st.link_graph.len > st.max_links →
      crawlIter client st = IterResult.errored "relative URL without a base") := by
  constructor
  · intro find_links st h1 h2
    obtain ⟨q, v, m⟩ := st
    dsimp only at h1 h2
    subst h1
    unfold crawlIterOld
    rw [if_neg h2]
    rfl
  · intro client st h1 h2
    obtain ⟨q, g, m⟩ := st
    dsimp only at h1 h2
    subst h1
    unfold crawlIter
    rw [if_neg h2]
    rfl

/-- Witness for the amended C1 at concrete states on both loops. -/
theorem C1_empty_frontier_witness :
    crawlIterOld (fun _ => [])
      { link_queue := [], already_visited := ["https://a"], max_links := 5 } =
      IterResultOld.wait 500
        { link_queue := [], already_visited := ["https://a"], max_links := 5 } ∧
    crawlIter (fun _ => Except.error "net")
      { link_queue := [], link_graph := emptyGraph, max_links := 5 } =
      IterResult.errored "relative URL without a base" :=
  ⟨C1_empty_frontier_amended.1 (fun _ => [])
      { link_queue := [], already_visited := ["https://a"], max_links := 5 }
      rfl (by decide),
   C1_empty_frontier_amended.2 (fun _ => Except.error "net")
      { link_queue := [], link_graph := emptyGraph, max_links := 5 }
      rfl (by decide)⟩

/-- C9: budget respect — each iteration of the `src/main.rs` worker loop
reads `len()` before dequeuing and fetching, and a reading strictly greater
than `max_links` moves the worker to its terminal state without any fetch
(the iteration neither consults the client nor changes the state). -/
theorem C9_budget_respect (client : String → Except String PageData)
    (st : CrawlerState) (h : st.link_graph.len > st.max_links) :
    crawlIter client st = IterResult.terminated := by
  unfold crawlIter
  rw [if_pos h]

/-- Witness for C9: a one-page graph with budget 0 stops the worker. -/
theorem C9_budget_respect_witness :
    crawlIter (fun _ => Except.error "net")
      { link_queue := [LinkPath.mk "" "https://a"],
        link_graph := applyCalls [⟨"https://a", "", [], [], []⟩],
        max_links := 0 } = IterResult.terminated :=
  C9_budget_respect (fun _ => Except.error "net")
    { link_queue := [LinkPath.mk "" "https://a"],
      link_graph := applyCalls [⟨"https://a", "", [], [], []⟩],
      max_links := 0 } (by decide)

end RustyCrawler
